import Mathlib

/-!
Shallow embedding of the SMA-dispersion scanner
(`src/dispersion_scanner.py` of NYSE-AGENT-SCANNER).

The price series downloaded for a ticker is modelled as a `List ℚ` of
closing prices, indexed by position (the position stands for the trading
date, so "date order" is index order).  Float columns of the pandas
DataFrame are modelled by `PF`: a finite rational, one of the two
infinities, or NaN, with IEEE comparison semantics (any comparison with
NaN is false) and the IEEE outcome of dividing by an exact zero.
-/

namespace NyseScanner

/-- Trading signal labels returned by `classify_signal`. -/
inductive Signal where
  | BUY : Signal
  | SELL : Signal
  | HOLD : Signal
deriving DecidableEq, Repr

/-- Embeds `classify_signal` (src/dispersion_scanner.py, lines 107-128):
`if dispersion <= -threshold: BUY elif dispersion >= threshold: SELL else HOLD`. -/
def classify_signal (dispersion : ℚ) (threshold : ℚ) : Signal :=
  if dispersion ≤ -threshold then Signal.BUY
  else if dispersion ≥ threshold then Signal.SELL
  else Signal.HOLD

/-- Entry of a pandas float column: a finite rational, an infinity, or NaN. -/
inductive PF where
  | fin : ℚ → PF
  | posInf : PF
  | negInf : PF
  | nan : PF
deriving DecidableEq, Repr

@[simp] def PF.isNan : PF → Bool
  | .fin _ => false
  | .posInf => false
  | .negInf => false
  | .nan => true

/-- IEEE less-or-equal on float column entries: any comparison involving NaN
is false; `-inf` is below and `+inf` above every non-NaN value. -/
@[simp] def PF.fle : PF → PF → Bool
  | .fin a, .fin b => decide (a ≤ b)
  | .fin _, .posInf => true
  | .fin _, .negInf => false
  | .fin _, .nan => false
  | .posInf, .fin _ => false
  | .posInf, .posInf => true
  | .posInf, .negInf => false
  | .posInf, .nan => false
  | .negInf, .fin _ => true
  | .negInf, .posInf => true
  | .negInf, .negInf => true
  | .negInf, .nan => false
  | .nan, .fin _ => false
  | .nan, .posInf => false
  | .nan, .negInf => false
  | .nan, .nan => false

/-- The classification as invoked in `get_ticker_dispersion`, where the argument
is the float value of the `Dispersion_%` column (possibly infinite). -/
def classify_signalF (dispersion : PF) (threshold : ℚ) : Signal :=
  if dispersion.fle (PF.fin (-threshold)) then Signal.BUY
  else if (PF.fin threshold).fle dispersion then Signal.SELL
  else Signal.HOLD

/-- Value of the `SMA_period` column at row `i`
(`data['Close'].rolling(window=period).mean()`): NaN until a full window of
`period` rows exists, then the mean of the trailing `period` closes. -/
def smaAt (closes : List ℚ) (period : ℕ) (i : ℕ) : PF :=
  if 1 ≤ period ∧ period ≤ i + 1 then
    PF.fin (((closes.drop (i + 1 - period)).take period).sum / period)
  else PF.nan

/-- Value of the `Dispersion_%` column at one row:
`((Close - SMA) / SMA) * 100` under float semantics.  Division by an exact
zero yields NaN for `0/0` and a signed infinity otherwise; arithmetic on a
NaN moving average yields NaN, as does `(c - inf) / inf`. -/
def dispAt (close : ℚ) (sma : PF) : PF :=
  match sma with
  | .fin m =>
      if m = 0 then
        if close = 0 then PF.nan
        else if 0 < close then PF.posInf
        else PF.negInf
      else PF.fin ((close - m) / m * 100)
  | .posInf => PF.nan
  | .negInf => PF.nan
  | .nan => PF.nan

/-- One row of the DataFrame built by `calculate_sma_dispersion`:
date (as row index), close, SMA column, dispersion column. -/
structure Point where
  date : ℕ
  close : ℚ
  sma : PF
  disp : PF
deriving DecidableEq, Repr

/-- The DataFrame after both derived columns are added (before `dropna`). -/
def rawTable (closes : List ℚ) (period : ℕ) : List Point :=
  (List.range closes.length).map fun i =>
    { date := i
      close := closes.getD i 0
      sma := smaAt closes period i
      disp := dispAt (closes.getD i 0) (smaAt closes period i) }

/-- Embeds `data.dropna()`: drop every row in which some column is NaN
(the close column, being input data, is never NaN in this model). -/
def dropna (rows : List Point) : List Point :=
  rows.filter fun r => !(r.sma.isNan || r.disp.isNan)

/-- Embeds `calculate_sma_dispersion` (src/dispersion_scanner.py, lines 51-64):
`None` when the downloaded data is empty or shorter than `period`, otherwise
the DataFrame with SMA and dispersion columns, NaN rows dropped. -/
def calculate_sma_dispersion (closes : List ℚ) (period : ℕ) : Option (List Point) :=
  if closes.length = 0 ∨ closes.length < period then none
  else some (dropna (rawTable closes period))

/-- Python `round` to the nearest integer, ties to the even integer. -/
def pyRoundInt (q : ℚ) : ℤ :=
  let f := ⌊q⌋
  if q - f < 1/2 then f
  else if 1/2 < q - f then f + 1
  else if f % 2 = 0 then f else f + 1

/-- Python `round(x, 2)`. -/
def round2 (q : ℚ) : ℚ := (pyRoundInt (q * 100) : ℚ) / 100

/-- Rounding `round(x, 2)` on a float column entry: infinities and NaN round to themselves. -/
def PF.round2 : PF → PF
  | .fin q => PF.fin (NyseScanner.round2 q)
  | .posInf => PF.posInf
  | .negInf => PF.negInf
  | .nan => PF.nan

/-- The record built by `get_ticker_dispersion` for one ticker. -/
structure TickerResult where
  ticker : String
  date : ℕ
  close_price : ℚ
  sma : PF
  dispersion_pct : PF
  signal : Signal
deriving DecidableEq, Repr

/-- Embeds `get_ticker_dispersion` (src/dispersion_scanner.py, lines 87-104):
take the last row of `calculate_sma_dispersion`, round the reported fields to
two decimals, and classify the (unrounded) dispersion. `None` when the
computation failed or the cleaned DataFrame is empty. -/
def get_ticker_dispersion (ticker : String) (closes : List ℚ) (period : ℕ)
    (threshold : ℚ) : Option TickerResult :=
  match calculate_sma_dispersion closes period with
  | none => none
  | some data =>
    match data.getLast? with
    | none => none
    | some latest =>
        some { ticker := ticker
               date := latest.date
               close_price := round2 latest.close
               sma := latest.sma.round2
               dispersion_pct := latest.disp.round2
               signal := classify_signalF latest.disp threshold }

/-- Sort position of a float value under `sort_values`: `-inf`, then finite
values, then `+inf`, NaN last. -/
def PF.rank : PF → ℕ
  | .fin _ => 1
  | .posInf => 2
  | .negInf => 0
  | .nan => 3

def PF.finVal : PF → ℚ
  | .fin q => q
  | .posInf => 0
  | .negInf => 0
  | .nan => 0

/-- Total order used by `sort_values` on a float column. -/
def PF.sortLE (a b : PF) : Prop :=
  a.rank < b.rank ∨ (a.rank = b.rank ∧ a.finVal ≤ b.finVal)

instance : DecidableRel PF.sortLE := fun a b => by
  unfold PF.sortLE; infer_instance

/-- Row order of `df.sort_values('dispersion_pct', ascending=True)`. -/
def dispLE (a b : TickerResult) : Prop :=
  PF.sortLE a.dispersion_pct b.dispersion_pct

instance : DecidableRel dispLE := fun a b => by
  unfold dispLE; infer_instance

/-- Row order of `sort_values('dispersion_pct', ascending=False)`. -/
def dispGE (a b : TickerResult) : Prop := dispLE b a

instance : DecidableRel dispGE := fun a b => by
  unfold dispGE dispLE; infer_instance

theorem PF.sortLE_total (a b : PF) : PF.sortLE a b ∨ PF.sortLE b a := by
  unfold PF.sortLE
  rcases lt_trichotomy a.rank b.rank with h | h | h
  · exact Or.inl (Or.inl h)
  · rcases le_total a.finVal b.finVal with h2 | h2
    · exact Or.inl (Or.inr ⟨h, h2⟩)
    · exact Or.inr (Or.inr ⟨h.symm, h2⟩)
  · exact Or.inr (Or.inl h)

theorem PF.sortLE_trans {a b c : PF} (h1 : PF.sortLE a b) (h2 : PF.sortLE b c) :
    PF.sortLE a c := by
  unfold PF.sortLE at *
  rcases h1 with h1 | ⟨h1, h1v⟩ <;> rcases h2 with h2 | ⟨h2, h2v⟩
  · exact Or.inl (h1.trans h2)
  · exact Or.inl (h2 ▸ h1)
  · exact Or.inl (h1 ▸ h2)
  · exact Or.inr ⟨h1.trans h2, h1v.trans h2v⟩

instance : IsTotal TickerResult dispLE := ⟨fun _ _ => PF.sortLE_total _ _⟩

instance : IsTrans TickerResult dispLE :=
  ⟨fun _ _ _ h1 h2 => PF.sortLE_trans h1 h2⟩

instance : IsTotal TickerResult dispGE := ⟨fun _ _ => (PF.sortLE_total _ _).symm⟩

instance : IsTrans TickerResult dispGE :=
  ⟨fun _ _ _ h1 h2 => PF.sortLE_trans h2 h1⟩

/-- Embeds `scan_all_tickers` (src/dispersion_scanner.py, lines 147-171): attempt
every ticker in order, collect the successful records, log a warning for each
ticker whose scan failed, return an empty DataFrame when nothing succeeded,
otherwise the records sorted ascending by `dispersion_pct`; the second
component is the list of tickers warned about.  The code's
`df.sort_values('dispersion_pct')` uses the default quicksort, which fixes no
order among tied rows; this model realizes the sort as an insertion sort, one
comparison-correct implementation of it.  No theorem below relies on the
order of tied rows, except at a two-element input, where numpy sorts with its
small-array insertion sort and therefore agrees with this model. -/
def scan_all_tickers (feed : String → List ℚ) (tickers : List String)
    (period : ℕ) (threshold : ℚ) : List TickerResult × List String :=
  let results := tickers.filterMap fun s =>
    get_ticker_dispersion s (feed s) period threshold
  let warnings := tickers.filter fun s =>
    (get_ticker_dispersion s (feed s) period threshold).isNone
  if results = [] then ([], warnings)
  else (List.insertionSort dispLE results, warnings)

/-- Embeds `filter_opportunities` (src/dispersion_scanner.py, lines 190-201): rows
with `dispersion_pct <= -threshold` sorted ascending, and rows with
`dispersion_pct >= threshold` sorted descending. -/
def filter_opportunities (df : List TickerResult) (threshold : ℚ) :
    List TickerResult × List TickerResult :=
  if df = [] then ([], [])
  else
    let buy := df.filter fun r => r.dispersion_pct.fle (PF.fin (-threshold))
    let sell := df.filter fun r => (PF.fin threshold).fle r.dispersion_pct
    (List.insertionSort dispLE buy, List.insertionSort dispGE sell)

/-- Mean of the `period` closes starting at position `j` (the window that the
rolling mean assigns to row `j + period - 1`). -/
def winMean (closes : List ℚ) (period : ℕ) (j : ℕ) : ℚ :=
  ((closes.drop j).take period).sum / period

/-- The row of the cleaned table that corresponds to window start `j`:
its date is row index `period - 1 + j`. -/
def cleanRow (closes : List ℚ) (period : ℕ) (j : ℕ) : Point :=
  { date := period - 1 + j
    close := closes.getD (period - 1 + j) 0
    sma := PF.fin (winMean closes period j)
    disp := dispAt (closes.getD (period - 1 + j) 0) (PF.fin (winMean closes period j)) }

/-- After `dropna`, the table consists of the rows from index `period - 1` on
(where the rolling mean is defined), minus the rows whose dispersion column is
NaN (zero moving average together with a zero close). -/
theorem dropna_rawTable_eq (closes : List ℚ) (p : ℕ) (hp : 1 ≤ p)
    (hn : p ≤ closes.length) :
    dropna (rawTable closes p) =
      ((List.range (closes.length - p + 1)).map (cleanRow closes p)).filter
        fun r => !r.disp.isNan := by
  have hsplit : closes.length = (p - 1) + (closes.length - p + 1) := by omega
  unfold dropna rawTable
  conv_lhs => rw [hsplit, List.range_add]
  rw [List.map_append, List.filter_append]
  have h1 : ∀ r ∈ (List.range (p - 1)).map fun i =>
      ({ date := i
         close := closes.getD i 0
         sma := smaAt closes p i
         disp := dispAt (closes.getD i 0) (smaAt closes p i) } : Point),
      ¬ (!(r.sma.isNan || r.disp.isNan)) = true := by
    intro r hr
    obtain ⟨i, hi, rfl⟩ := List.mem_map.mp hr
    have hi2 : i < p - 1 := List.mem_range.mp hi
    have hsma : smaAt closes p i = PF.nan := by
      unfold smaAt
      rw [if_neg]
      omega
    simp [hsma]
  rw [List.filter_eq_nil_iff.mpr h1, List.nil_append, List.map_map]
  have h2 : ∀ j ∈ List.range (closes.length - p + 1),
      (fun i =>
        ({ date := i
           close := closes.getD i 0
           sma := smaAt closes p i
           disp := dispAt (closes.getD i 0) (smaAt closes p i) } : Point)) ((p - 1) + j) =
      cleanRow closes p j := by
    intro j hj
    have hidx : p - 1 + j + 1 - p = j := by omega
    have hsma : smaAt closes p (p - 1 + j) = PF.fin (winMean closes p j) := by
      unfold smaAt winMean
      rw [if_pos (by omega), hidx]
    simp only [hsma]
    rfl
  rw [show ((fun i =>
      ({ date := i
         close := closes.getD i 0
         sma := smaAt closes p i
         disp := dispAt (closes.getD i 0) (smaAt closes p i) } : Point)) ∘
        fun x => (p - 1) + x) =
      fun j =>
        ({ date := p - 1 + j
           close := closes.getD (p - 1 + j) 0
           sma := smaAt closes p (p - 1 + j)
           disp := dispAt (closes.getD (p - 1 + j) 0) (smaAt closes p (p - 1 + j)) } : Point)
    from rfl]
  rw [List.map_congr_left h2]
  apply List.filter_congr
  intro r hr
  obtain ⟨j, hj, rfl⟩ := List.mem_map.mp hr
  simp [cleanRow]

/-- The dispersion column of a kept row whose window mean is nonzero. -/
theorem cleanRow_disp_of_ne (closes : List ℚ) (p j : ℕ)
    (hm : winMean closes p j ≠ 0) :
    (cleanRow closes p j).disp =
      PF.fin ((closes.getD (p - 1 + j) 0 - winMean closes p j)
        / winMean closes p j * 100) := by
  simp [cleanRow, dispAt, hm]

/-- When every window mean is nonzero, no dispersion entry is NaN, so the
cleaned table is exactly the rows from index `period - 1` on. -/
theorem calculate_eq_map_cleanRow (closes : List ℚ) (p : ℕ) (hp : 1 ≤ p)
    (hn : p ≤ closes.length)
    (hnz : ∀ j, j + p ≤ closes.length → winMean closes p j ≠ 0) :
    calculate_sma_dispersion closes p =
      some ((List.range (closes.length - p + 1)).map (cleanRow closes p)) := by
  have hne : ¬(closes.length = 0 ∨ closes.length < p) := by omega
  have hkeep : dropna (rawTable closes p) =
      (List.range (closes.length - p + 1)).map (cleanRow closes p) := by
    rw [dropna_rawTable_eq closes p hp hn]
    apply List.filter_eq_self.mpr
    intro r hr
    obtain ⟨j, hj, rfl⟩ := List.mem_map.mp hr
    rw [cleanRow_disp_of_ne closes p j (hnz j (by have := List.mem_range.mp hj; omega))]
    rfl
  rw [calculate_sma_dispersion, if_neg hne, hkeep]

/-- C5: for a series of length `n ≥ period` whose rolling means are all
nonzero, `calculate_sma_dispersion` produces exactly `n - period + 1` points,
in ascending date order, where the point with window start `j` (row index
`period - 1 + j`) carries the mean of the closes at positions
`j .. j + period - 1` and the dispersion
`(close - movingAverage) / movingAverage * 100`. -/
theorem computeSeries_points (closes : List ℚ) (p : ℕ) (hp : 1 ≤ p)
    (hn : p ≤ closes.length)
    (hnz : ∀ j, j + p ≤ closes.length → winMean closes p j ≠ 0) :
    ∃ pts, calculate_sma_dispersion closes p = some pts ∧
      pts.length = closes.length - p + 1 ∧
      pts.Pairwise (fun a b => a.date < b.date) ∧
      ∀ j (hj : j < pts.length),
        (pts.get ⟨j, hj⟩).date = p - 1 + j ∧
        (pts.get ⟨j, hj⟩).sma = PF.fin (winMean closes p j) ∧
        (pts.get ⟨j, hj⟩).disp =
          PF.fin ((closes.getD (p - 1 + j) 0 - winMean closes p j)
            / winMean closes p j * 100) := by
  have hdisp : ∀ j, j < closes.length - p + 1 →
      (cleanRow closes p j).disp =
        PF.fin ((closes.getD (p - 1 + j) 0 - winMean closes p j)
          / winMean closes p j * 100) := by
    intro j hj
    exact cleanRow_disp_of_ne closes p j (hnz j (by omega))
  refine ⟨(List.range (closes.length - p + 1)).map (cleanRow closes p),
    calculate_eq_map_cleanRow closes p hp hn hnz, ?_, ?_, ?_⟩
  · simp
  · rw [List.pairwise_map]
    exact (List.pairwise_lt_range _).imp fun h => by
      simp only [cleanRow]
      omega
  · intro j hj
    have hj2 : j < closes.length - p + 1 := by simpa using hj
    have hget : ((List.range (closes.length - p + 1)).map (cleanRow closes p)).get ⟨j, hj⟩ =
        cleanRow closes p j := by
      rw [List.get_eq_getElem, List.getElem_map, List.getElem_range]
    refine ⟨?_, ?_, ?_⟩
    · rw [hget]; rfl
    · rw [hget]; rfl
    · rw [hget]
      exact hdisp j hj2

/-- Witness for C5 at the concrete series `[1, 2]` with period 2. -/
theorem computeSeries_points_witness :
    ∃ pts, calculate_sma_dispersion [1, 2] 2 = some pts ∧
      pts.length = ([1, 2] : List ℚ).length - 2 + 1 ∧
      pts.Pairwise (fun a b => a.date < b.date) ∧
      ∀ j (hj : j < pts.length),
        (pts.get ⟨j, hj⟩).date = 2 - 1 + j ∧
        (pts.get ⟨j, hj⟩).sma = PF.fin (winMean [1, 2] 2 j) ∧
        (pts.get ⟨j, hj⟩).disp =
          PF.fin ((([1, 2] : List ℚ).getD (2 - 1 + j) 0 - winMean [1, 2] 2 j)
            / winMean [1, 2] 2 j * 100) :=
  computeSeries_points [1, 2] 2 (by norm_num) (by norm_num)
    (fun j hj => by
      have hj0 : j = 0 := by simpa using hj
      subst hj0
      norm_num [winMean])

/-- C1: `classify_signal` is total with inclusive boundaries: for every
dispersion `x` and positive threshold `t` the result is exactly one of BUY,
SELL, HOLD, characterised by `x ≤ -t`, `t ≤ x`, and `-t < x < t`
respectively; in particular the values at exactly `-t` and `t` are BUY and
SELL, not HOLD. -/
theorem classify_total_inclusive (x t : ℚ) (ht : 0 < t) :
    (classify_signal x t = Signal.BUY ∨ classify_signal x t = Signal.SELL ∨
      classify_signal x t = Signal.HOLD) ∧
    (classify_signal x t = Signal.BUY ↔ x ≤ -t) ∧
    (classify_signal x t = Signal.SELL ↔ t ≤ x) ∧
    (classify_signal x t = Signal.HOLD ↔ -t < x ∧ x < t) ∧
    classify_signal (-t) t = Signal.BUY ∧
    classify_signal t t = Signal.SELL := by
  have hBUY : ∀ y : ℚ, classify_signal y t = Signal.BUY ↔ y ≤ -t := by
    intro y
    unfold classify_signal
    split_ifs with h1 h2
    · simp [h1]
    · simpa using h1
    · simpa using h1
  have hSELL : ∀ y : ℚ, classify_signal y t = Signal.SELL ↔ t ≤ y := by
    intro y
    unfold classify_signal
    split_ifs with h1 h2
    · simp only [reduceCtorEq, false_iff]
      intro hc
      linarith
    · simpa using h2
    · simpa using h2
  have hHOLD : ∀ y : ℚ, classify_signal y t = Signal.HOLD ↔ -t < y ∧ y < t := by
    intro y
    unfold classify_signal
    split_ifs with h1 h2
    · simp only [reduceCtorEq, false_iff, not_and]
      intro hc
      linarith
    · simp only [reduceCtorEq, false_iff, not_and]
      intro hc
      intro hc2
      exact absurd h2 (by linarith)
    · simpa using ⟨not_le.mp h1, not_le.mp h2⟩
  have htot : ∀ sg : Signal, sg = Signal.BUY ∨ sg = Signal.SELL ∨ sg = Signal.HOLD := by
    intro sg
    cases sg <;> simp
  exact ⟨htot _, hBUY x, hSELL x, hHOLD x, (hBUY (-t)).mpr le_rfl, (hSELL t).mpr le_rfl⟩

/-- Witness for C1 at `x = 0`, `t = 15`. -/
theorem classify_total_inclusive_witness :
    (0 : ℚ) < 15 ∧
      (classify_signal (-15) 15 = Signal.BUY ∧ classify_signal 15 15 = Signal.SELL) :=
  ⟨by norm_num, (classify_total_inclusive 0 15 (by norm_num)).2.2.2.2⟩

/-- Computation rule for `get_ticker_dispersion` in the successful case. -/
theorem get_ticker_eq (ticker : String) (closes : List ℚ) (period : ℕ)
    (threshold : ℚ) (data : List Point) (latest : Point)
    (h1 : calculate_sma_dispersion closes period = some data)
    (h2 : data.getLast? = some latest) :
    get_ticker_dispersion ticker closes period threshold =
      some { ticker := ticker
             date := latest.date
             close_price := round2 latest.close
             sma := latest.sma.round2
             dispersion_pct := latest.disp.round2
             signal := classify_signalF latest.disp threshold } := by
  unfold get_ticker_dispersion
  simp only [h1, h2]

/-- `get_ticker_dispersion` fails exactly when the series computation fails or
yields an empty cleaned table. -/
theorem get_ticker_none_iff (ticker : String) (closes : List ℚ) (period : ℕ)
    (threshold : ℚ) :
    get_ticker_dispersion ticker closes period threshold = none ↔
      calculate_sma_dispersion closes period = none ∨
      calculate_sma_dispersion closes period = some [] := by
  unfold get_ticker_dispersion
  cases hc : calculate_sma_dispersion closes period with
  | none => simp
  | some data =>
    cases hl : data.getLast? with
    | none =>
        have hnil : data = [] := by
          cases data with
          | nil => rfl
          | cons a l => simp [List.getLast?_concat, List.getLast?] at hl
        simp [hnil]
    | some latest =>
        have hne : data ≠ [] := by
          intro hnil
          rw [hnil] at hl
          simp [List.getLast?] at hl
        simp [hl, hne]

/-- C8: a constant positive series of length at least `period` has every
moving average equal to the constant, every dispersion equal to zero, and the
scan record for it carries the HOLD signal for every positive threshold. -/
theorem constant_series_hold (s : String) (n p : ℕ) (P t : ℚ)
    (hp : 1 ≤ p) (hn : p ≤ n) (hP : 0 < P) (ht : 0 < t) :
    ∃ pts, calculate_sma_dispersion (List.replicate n P) p = some pts ∧
      pts ≠ [] ∧
      (∀ r ∈ pts, r.sma = PF.fin P ∧ r.disp = PF.fin 0) ∧
      ∃ r, get_ticker_dispersion s (List.replicate n P) p t = some r ∧
        r.signal = Signal.HOLD := by
  have hlen : (List.replicate n P).length = n := List.length_replicate n P
  have hwm : ∀ j, j + p ≤ n → winMean (List.replicate n P) p j = P := by
    intro j hj
    unfold winMean
    rw [List.drop_replicate, List.take_replicate]
    have hmin : min p (n - j) = p := by omega
    rw [hmin, List.sum_replicate, nsmul_eq_mul]
    have hp0 : (p : ℚ) ≠ 0 := Nat.cast_ne_zero.mpr (by omega)
    field_simp
  have hnz : ∀ j, j + p ≤ (List.replicate n P).length →
      winMean (List.replicate n P) p j ≠ 0 := by
    intro j hj
    rw [hlen] at hj
    rw [hwm j hj]
    exact hP.ne.symm
  have hcalc := calculate_eq_map_cleanRow (List.replicate n P) p hp
    (by rw [hlen]; exact hn) hnz
  rw [hlen] at hcalc
  have hN : 1 ≤ n - p + 1 := by omega
  have hrows : ∀ r ∈ (List.range (n - p + 1)).map (cleanRow (List.replicate n P) p),
      r.sma = PF.fin P ∧ r.disp = PF.fin 0 := by
    intro r hr
    obtain ⟨j, hj, rfl⟩ := List.mem_map.mp hr
    have hj2 : j + p ≤ n := by have := List.mem_range.mp hj; omega
    have hm := hwm j hj2
    constructor
    · show PF.fin (winMean (List.replicate n P) p j) = PF.fin P
      rw [hm]
    · rw [cleanRow_disp_of_ne _ _ _ (by rw [hm]; exact hP.ne.symm)]
      rw [hm]
      have hcl : (List.replicate n P).getD (p - 1 + j) 0 = P := by
        rw [List.getD_eq_getElem _ _ (by rw [hlen]; omega)]
        exact List.getElem_replicate ..
      rw [hcl]
      norm_num
  have hne : (List.range (n - p + 1)).map (cleanRow (List.replicate n P) p) ≠ [] := by
    simp only [ne_eq, List.map_eq_nil_iff, List.range_eq_nil]
    omega
  obtain ⟨latest, hlast⟩ :=
    Option.isSome_iff_exists.mp (List.getLast?_isSome.mpr hne)
  have hlmem := List.mem_of_mem_getLast? (hlast ▸ Option.mem_def.mpr rfl)
  have hldisp := (hrows latest hlmem).2
  refine ⟨_, hcalc, hne, hrows, ?_⟩
  refine ⟨_, get_ticker_eq s (List.replicate n P) p t _ latest hcalc hlast, ?_⟩
  show classify_signalF latest.disp t = Signal.HOLD
  rw [hldisp]
  unfold classify_signalF
  rw [if_neg, if_neg]
  · simp only [PF.fle]
    simp only [decide_eq_true_eq]
    linarith
  · simp only [PF.fle]
    simp only [decide_eq_true_eq]
    linarith

/-- Witness for C8 at `n = 2`, `p = 1`, `P = 100`, `t = 15`. -/
theorem constant_series_hold_witness :
    ∃ pts, calculate_sma_dispersion (List.replicate 2 100) 1 = some pts ∧
      pts ≠ [] ∧
      (∀ r ∈ pts, r.sma = PF.fin 100 ∧ r.disp = PF.fin 0) ∧
      ∃ r, get_ticker_dispersion "A" (List.replicate 2 100) 1 15 = some r ∧
        r.signal = Signal.HOLD :=
  constant_series_hold "A" 2 1 100 15 (by norm_num) (by norm_num) (by norm_num)
    (by norm_num)

/-- The series of the concrete scenario: 28 closes of 100 followed by 80. -/
def closesC9 : List ℚ := List.replicate 28 100 ++ [80]

/-- C9: on 28 closes of 100 followed by one close of 80 with period 29, the
single produced point has moving average `(100*28+80)/29` and dispersion
`(80 - 2880/29)/(2880/29)*100`, and the scan record at threshold 15 carries
the BUY signal. -/
theorem scenario_period29 :
    calculate_sma_dispersion closesC9 29 =
      some [{ date := 28
              close := 80
              sma := PF.fin ((100 * 28 + 80) / 29)
              disp := PF.fin ((80 - 2880 / 29) / (2880 / 29) * 100) }] ∧
    (get_ticker_dispersion "T" closesC9 29 15).map TickerResult.signal =
      some Signal.BUY := by
  have hlen : closesC9.length = 29 := by simp [closesC9]
  have hwm : winMean closesC9 29 0 = 2880 / 29 := by
    unfold winMean
    rw [List.drop_zero, List.take_of_length_le (by rw [hlen])]
    have hsum : closesC9.sum = 2880 := by
      simp [closesC9, List.sum_replicate, nsmul_eq_mul]
      norm_num
    rw [hsum]
    norm_num
  have hcl : closesC9.getD 28 0 = 80 := by
    rw [List.getD_eq_getElem _ _ (by rw [hlen]; norm_num)]
    unfold closesC9
    rw [List.getElem_append_right (by simp)]
    simp
  have hnz : ∀ j, j + 29 ≤ closesC9.length → winMean closesC9 29 j ≠ 0 := by
    intro j hj
    rw [hlen] at hj
    have hj0 : j = 0 := by omega
    subst hj0
    rw [hwm]
    norm_num
  have hcalc := calculate_eq_map_cleanRow closesC9 29 (by norm_num)
    (by rw [hlen]) hnz
  rw [hlen] at hcalc
  norm_num [List.range_succ] at hcalc
  have hpt : cleanRow closesC9 29 0 =
      { date := 28
        close := 80
        sma := PF.fin ((100 * 28 + 80) / 29)
        disp := PF.fin ((80 - 2880 / 29) / (2880 / 29) * 100) } := by
    have hm : winMean closesC9 29 0 ≠ 0 := by rw [hwm]; norm_num
    have hd := cleanRow_disp_of_ne closesC9 29 0 hm
    have hrest : (cleanRow closesC9 29 0).date = 28 ∧
        (cleanRow closesC9 29 0).close = 80 ∧
        (cleanRow closesC9 29 0).sma = PF.fin ((100 * 28 + 80) / 29) := by
      refine ⟨rfl, ?_, ?_⟩
      · show closesC9.getD (29 - 1 + 0) 0 = 80
        simpa using hcl
      · show PF.fin (winMean closesC9 29 0) = PF.fin ((100 * 28 + 80) / 29)
        rw [hwm]
        norm_num
    obtain ⟨h1, h2, h3⟩ := hrest
    cases hrow : cleanRow closesC9 29 0
    rw [hrow] at h1 h2 h3 hd
    simp only at h1 h2 h3 hd
    simp only [Point.mk.injEq]
    refine ⟨h1, h2, h3, ?_⟩
    rw [hd]
    simp only [PF.fin.injEq]
    rw [show (29 : ℕ) - 1 + 0 = 28 from rfl]
    rw [hcl, hwm]
  rw [hpt] at hcalc
  refine ⟨hcalc, ?_⟩
  rw [get_ticker_eq "T" closesC9 29 15 _ _ hcalc (List.getLast?_singleton _)]
  have hclass : classify_signalF (PF.fin ((80 - 2880 / 29) / (2880 / 29) * 100)) 15 =
      Signal.BUY := by
    unfold classify_signalF
    rw [if_pos]
    simp only [PF.fle, decide_eq_true_eq]
    norm_num
  show some (classify_signalF (PF.fin ((80 - 2880 / 29) / (2880 / 29) * 100)) 15) =
    some Signal.BUY
  rw [hclass]

/-- C3 counterexample: the empty series and a non-empty series shorter than
the period produce the identical failure value `none` — at both the series
computation and the per-ticker scan — so the two causes are not
distinguishable by the caller. -/
theorem noData_equals_insufficient :
    get_ticker_dispersion "X" [] 2 15 = get_ticker_dispersion "X" [5] 2 15 ∧
    get_ticker_dispersion "X" [] 2 15 = none ∧
    calculate_sma_dispersion [] 2 = none ∧
    calculate_sma_dispersion [5] 2 = none := by
  refine ⟨?_, ?_, ?_, ?_⟩ <;>
    norm_num [get_ticker_dispersion, calculate_sma_dispersion]

/-- C3 (amended): an empty series and a series shorter than the period both
fail, with the same single failure value `none` (no distinct No-Data
condition exists), and a successful computation implies the series had at
least `period` rows — no partial series is ever returned. -/
theorem failure_modes_collapse (s : String) (t : ℚ) (closes : List ℚ) (p : ℕ) :
    (closes = [] → calculate_sma_dispersion closes p = none) ∧
    (closes.length < p → calculate_sma_dispersion closes p = none) ∧
    ((closes = [] ∨ closes.length < p) →
      get_ticker_dispersion s closes p t = none) ∧
    (∀ pts, calculate_sma_dispersion closes p = some pts →
      closes ≠ [] ∧ p ≤ closes.length) := by
  have hcal : (closes = [] ∨ closes.length < p) →
      calculate_sma_dispersion closes p = none := by
    intro h
    rw [calculate_sma_dispersion, if_pos]
    rcases h with h | h
    · exact Or.inl (by simp [h])
    · exact Or.inr h
  refine ⟨fun h => hcal (Or.inl h), fun h => hcal (Or.inr h), ?_, ?_⟩
  · intro h
    unfold get_ticker_dispersion
    simp only [hcal h]
  · intro pts h
    by_contra hc
    rw [not_and_or, not_not, not_le] at hc
    rw [hcal (by simpa using hc)] at h
    exact Option.noConfusion h

/-- Witness for the amended C3 at the empty series and at `[5]` with period 2. -/
theorem failure_modes_collapse_witness :
    calculate_sma_dispersion [] 2 = none ∧
    get_ticker_dispersion "X" ([5] : List ℚ) 2 15 = none :=
  ⟨(failure_modes_collapse "X" 15 [] 2).1 rfl,
   (failure_modes_collapse "X" 15 [5] 2).2.2.1 (Or.inr (by norm_num))⟩

/-- C6 counterexample: with closes `[-1, 1]` and period 2 the moving average
of the last row is zero, yet the row is not omitted: it is returned with an
infinite (non-finite) dispersion value. -/
theorem zero_sma_inf_propagated :
    calculate_sma_dispersion [-1, 1] 2 =
      some [{ date := 1, close := 1, sma := PF.fin 0, disp := PF.posInf }] := by
  norm_num [calculate_sma_dispersion, rawTable, dropna, smaAt, dispAt,
    List.range_succ]

/-- A list of nonnegative rationals with zero sum is all zeros. -/
theorem all_zero_of_sum_zero_nonneg {l : List ℚ} (h : ∀ x ∈ l, 0 ≤ x)
    (hs : l.sum = 0) : ∀ x ∈ l, x = 0 := by
  induction l with
  | nil => simp
  | cons a l ih =>
    have ha : 0 ≤ a := h a (by simp)
    have hl : 0 ≤ l.sum := List.sum_nonneg fun x hx => h x (by simp [hx])
    rw [List.sum_cons] at hs
    have ha0 : a = 0 := by linarith
    have hls : l.sum = 0 := by linarith
    intro x hx
    rcases List.mem_cons.mp hx with rfl | hx2
    · exact ha0
    · exact ih (fun y hy => h y (by simp [hy])) hls x hx2

/-- C6 (amended): for a series of nonnegative closes, a zero moving average
forces the close itself to be zero, the dispersion entry is then NaN and the
row is dropped; consequently every returned point carries a finite
dispersion value.  (The counterexample shows this fails once negative closes
are allowed: `dropna` removes NaN rows but not infinite ones.) -/
theorem zero_sma_dropped_for_nonneg (closes : List ℚ) (p : ℕ) (pts : List Point)
    (hpos : ∀ c ∈ closes, 0 ≤ c)
    (h : calculate_sma_dispersion closes p = some pts) :
    ∀ r ∈ pts, ∃ q, r.disp = PF.fin q := by
  have hguard : ¬(closes.length = 0 ∨ closes.length < p) := by
    intro hg
    rw [calculate_sma_dispersion, if_pos hg] at h
    exact Option.noConfusion h
  rw [calculate_sma_dispersion, if_neg hguard] at h
  obtain rfl : dropna (rawTable closes p) = pts := Option.some.inj h
  intro r hr
  obtain ⟨hmem, hpred⟩ := List.mem_filter.mp hr
  obtain ⟨i, hi, rfl⟩ := List.mem_map.mp hmem
  have hi2 : i < closes.length := List.mem_range.mp hi
  simp only [Bool.not_eq_eq_eq_not, Bool.not_true, Bool.or_eq_false_iff] at hpred
  obtain ⟨hsma, hdispn⟩ := hpred
  by_cases hcond : 1 ≤ p ∧ p ≤ i + 1
  · set m := ((closes.drop (i + 1 - p)).take p).sum / (p : ℚ) with hm
    have hsmaeq : smaAt closes p i = PF.fin m := by
      rw [smaAt, if_pos hcond]
    by_cases hm0 : m = 0
    · exfalso
      have hsum0 : ((closes.drop (i + 1 - p)).take p).sum = 0 := by
        rcases div_eq_zero_iff.mp (hm ▸ hm0) with h1 | h1
        · exact h1
        · exact absurd h1 (Nat.cast_ne_zero.mpr (by omega))
      have hwin : ∀ x ∈ (closes.drop (i + 1 - p)).take p, 0 ≤ x := fun x hx =>
        hpos x (List.mem_of_mem_drop (List.mem_of_mem_take hx))
      have hallz := all_zero_of_sum_zero_nonneg hwin hsum0
      have hlenw : ((closes.drop (i + 1 - p)).take p).length = p := by
        simp only [List.length_take, List.length_drop]
        omega
      have hp1 : p - 1 < ((closes.drop (i + 1 - p)).take p).length := by omega
      have hlast : ((closes.drop (i + 1 - p)).take p)[p - 1] = closes[i] := by
        rw [List.getElem_take, List.getElem_drop]
        congr 1
        omega
      have hclose0 : closes[i] = 0 := by
        rw [← hlast]
        exact hallz _ (List.getElem_mem _)
      have hgd : closes.getD i 0 = (0 : ℚ) := by
        rw [List.getD_eq_getElem _ _ hi2, hclose0]
      rw [hsmaeq] at hdispn
      rw [dispAt] at hdispn
      simp only [hm0, if_pos, hgd, if_true] at hdispn
      simp at hdispn
    · refine ⟨(closes.getD i 0 - m) / m * 100, ?_⟩
      show dispAt (closes.getD i 0) (smaAt closes p i) = _
      rw [hsmaeq, dispAt]
      simp only [hm0, if_false]
  · exfalso
    have : smaAt closes p i = PF.nan := by rw [smaAt, if_neg hcond]
    rw [this] at hsma
    exact Bool.noConfusion hsma

/-- The single point of the witness series `[100]` with period 1. -/
def ptW6 : Point :=
  { date := 0
    close := 100
    sma := PF.fin 100
    disp := PF.fin 0 }

/-- Witness for the amended C6 at the nonnegative series `[100]`, period 1,
evaluated at its single point. -/
theorem zero_sma_dropped_for_nonneg_witness :
    ∃ q, ptW6.disp = PF.fin q :=
  zero_sma_dropped_for_nonneg [100] 1 [ptW6] (by norm_num)
    (by norm_num [calculate_sma_dispersion, rawTable, dropna, smaAt, dispAt,
      List.range_succ, ptW6])
    ptW6 (by simp)

/-- A value below `-t` cannot also lie above `t` when `t` is positive, under
the IEEE comparisons used by the filters. -/
theorem fle_not_both (t : ℚ) (ht : 0 < t) (d : PF)
    (hb : d.fle (PF.fin (-t)) = true) : (PF.fin t).fle d = false := by
  cases d with
  | fin q =>
      simp only [PF.fle, decide_eq_true_eq] at hb
      simp only [PF.fle, decide_eq_false_iff_not]
      intro hc
      linarith
  | posInf => simp [PF.fle] at hb
  | negInf => rfl
  | nan => rfl

/-- C2: `filter_opportunities` partitions: the buy list consists exactly of
the rows with `dispersion_pct ≤ -t`, sorted ascending, the sell list exactly
of the rows with `dispersion_pct ≥ t`, sorted descending; no row is in both
lists, and every member of the buy and sell lists classifies as BUY and SELL
respectively (never HOLD). -/
theorem filter_opportunities_partition (df : List TickerResult) (t : ℚ)
    (ht : 0 < t) :
    (filter_opportunities df t).1.Perm
      (df.filter fun r => r.dispersion_pct.fle (PF.fin (-t))) ∧
    (filter_opportunities df t).1.Pairwise dispLE ∧
    (filter_opportunities df t).2.Perm
      (df.filter fun r => (PF.fin t).fle r.dispersion_pct) ∧
    (filter_opportunities df t).2.Pairwise dispGE ∧
    (∀ r ∈ (filter_opportunities df t).1, r ∉ (filter_opportunities df t).2) ∧
    (∀ r ∈ (filter_opportunities df t).1,
      classify_signalF r.dispersion_pct t = Signal.BUY) ∧
    (∀ r ∈ (filter_opportunities df t).2,
      classify_signalF r.dispersion_pct t = Signal.SELL) := by
  by_cases hdf : df = []
  · subst hdf
    simp [filter_opportunities]
  · have hfo : filter_opportunities df t =
        (List.insertionSort dispLE
          (df.filter fun r => r.dispersion_pct.fle (PF.fin (-t))),
         List.insertionSort dispGE
          (df.filter fun r => (PF.fin t).fle r.dispersion_pct)) := by
      unfold filter_opportunities
      rw [if_neg hdf]
    rw [hfo]
    have hbuy : ∀ r ∈ List.insertionSort dispLE
        (df.filter fun r => r.dispersion_pct.fle (PF.fin (-t))),
        r.dispersion_pct.fle (PF.fin (-t)) = true := by
      intro r hr
      have hr2 := (List.perm_insertionSort dispLE _).mem_iff.mp hr
      exact (List.mem_filter.mp hr2).2
    have hsell : ∀ r ∈ List.insertionSort dispGE
        (df.filter fun r => (PF.fin t).fle r.dispersion_pct),
        (PF.fin t).fle r.dispersion_pct = true := by
      intro r hr
      have hr2 := (List.perm_insertionSort dispGE _).mem_iff.mp hr
      exact (List.mem_filter.mp hr2).2
    refine ⟨List.perm_insertionSort _ _, List.sorted_insertionSort _ _,
      List.perm_insertionSort _ _, List.sorted_insertionSort _ _, ?_, ?_, ?_⟩
    · intro r hrb hrs
      have h1 := hbuy r hrb
      have h2 := hsell r hrs
      rw [fle_not_both t ht _ h1] at h2
      exact Bool.noConfusion h2
    · intro r hrb
      rw [classify_signalF, if_pos (hbuy r hrb)]
    · intro r hrs
      have h2 := hsell r hrs
      have h1 : r.dispersion_pct.fle (PF.fin (-t)) = false := by
        by_contra hc
        rw [Bool.not_eq_false] at hc
        rw [fle_not_both t ht _ hc] at h2
        exact Bool.noConfusion h2
      rw [classify_signalF, if_neg (by rw [h1]; exact Bool.false_ne_true), if_pos h2]

/-- A concrete buy-side scan record used by the C2 witness. -/
def rW2 : TickerResult :=
  { ticker := "W"
    date := 0
    close_price := 80
    sma := PF.fin 100
    dispersion_pct := PF.fin (-20)
    signal := Signal.BUY }

/-- Witness for C2 at the one-row collection `[rW2]`, threshold 15. -/
theorem filter_opportunities_partition_witness :
    (filter_opportunities [rW2] 15).1.Perm
      ([rW2].filter fun r => r.dispersion_pct.fle (PF.fin (-15))) ∧
    (filter_opportunities [rW2] 15).1.Pairwise dispLE ∧
    (filter_opportunities [rW2] 15).2.Perm
      ([rW2].filter fun r => (PF.fin 15).fle r.dispersion_pct) ∧
    (filter_opportunities [rW2] 15).2.Pairwise dispGE ∧
    (∀ r ∈ (filter_opportunities [rW2] 15).1,
      r ∉ (filter_opportunities [rW2] 15).2) ∧
    (∀ r ∈ (filter_opportunities [rW2] 15).1,
      classify_signalF r.dispersion_pct 15 = Signal.BUY) ∧
    (∀ r ∈ (filter_opportunities [rW2] 15).2,
      classify_signalF r.dispersion_pct 15 = Signal.SELL) :=
  filter_opportunities_partition [rW2] 15 (by norm_num)

/-- The single table row for the one-element series `[100]` with period 1. -/
def pt100 : Point :=
  { date := 0
    close := 100
    sma := PF.fin 100
    disp := PF.fin 0 }

/-- The scan record produced for a ticker whose feed is `[100]`, period 1,
threshold 15. -/
def r100 (s : String) : TickerResult :=
  { ticker := s
    date := 0
    close_price := 100
    sma := PF.fin 100
    dispersion_pct := PF.fin 0
    signal := Signal.HOLD }

theorem get_ticker_const100 (s : String) :
    get_ticker_dispersion s [100] 1 15 = some (r100 s) := by
  rw [get_ticker_eq s [100] 1 15 [pt100] pt100
    (by norm_num [calculate_sma_dispersion, rawTable, dropna, smaAt, dispAt,
      List.range_succ, pt100])
    (List.getLast?_singleton _)]
  simp only [Option.some.injEq, r100, pt100, TickerResult.mk.injEq]
  refine ⟨trivial, trivial, ?_, ?_, ?_, ?_⟩
  · norm_num [round2, pyRoundInt]
  · show PF.round2 (PF.fin 100) = PF.fin 100
    rw [PF.round2]
    norm_num [round2, pyRoundInt]
  · show PF.round2 (PF.fin 0) = PF.fin 0
    rw [PF.round2]
    norm_num [round2, pyRoundInt]
  · show classify_signalF (PF.fin 0) 15 = Signal.HOLD
    rw [classify_signalF, if_neg, if_neg]
    · simp only [PF.fle, decide_eq_true_eq]
      norm_num
    · simp only [PF.fle, decide_eq_true_eq]
      norm_num

/-- A feed that returns the constant one-row series `[100]` for every symbol. -/
def feedBA : String → List ℚ := fun _ => [100]

/-- C4 counterexample: scanning `["B", "A"]` against a feed on which both
tickers get the same dispersion (0), the output order is `["B", "A"]` — for
an input of two rows numpy sorts with its (stable) small-array insertion
sort, so the program keeps the scan order here as the model does — hence
the tie is not broken by ascending symbol identifier. -/
theorem scan_ties_not_symbol_sorted :
    ((scan_all_tickers feedBA ["B", "A"] 1 15).1.map TickerResult.dispersion_pct =
      [PF.fin 0, PF.fin 0]) ∧
    ((scan_all_tickers feedBA ["B", "A"] 1 15).1.map TickerResult.ticker =
      ["B", "A"]) ∧
    ¬ ((scan_all_tickers feedBA ["B", "A"] 1 15).1.map TickerResult.ticker).Pairwise
        (fun a b => a ≤ b) := by
  have hle : dispLE (r100 "B") (r100 "A") := Or.inr ⟨rfl, le_rfl⟩
  have hscan : (scan_all_tickers feedBA ["B", "A"] 1 15).1 =
      [r100 "B", r100 "A"] := by
    unfold scan_all_tickers
    simp only [feedBA, List.filterMap_cons, List.filterMap_nil, get_ticker_const100]
    rw [if_neg (by simp)]
    simp [List.insertionSort, List.orderedInsert, hle]
  rw [hscan]
  refine ⟨by simp [r100], by simp [r100], ?_⟩
  simp only [List.map_cons, List.map_nil, r100]
  intro hpw
  have hBA : ("B" : String) ≤ "A" := List.rel_of_pairwise_cons hpw (by simp)
  exact absurd hBA (by rw [String.le_iff_toList_le]; decide)

/-- C4 (amended): scan results are sorted non-decreasing by the (rounded)
`dispersion_pct`, and they are exactly the successful per-ticker records; the
sort has no secondary key, so no tie-break by ascending symbol identifier is
performed, and the order of rows with equal `dispersion_pct` is left
unspecified. -/
theorem scanMany_sorted (feed : String → List ℚ) (tickers : List String)
    (p : ℕ) (t : ℚ) :
    (scan_all_tickers feed tickers p t).1.Pairwise dispLE ∧
    (scan_all_tickers feed tickers p t).1.Perm
      (tickers.filterMap fun s => get_ticker_dispersion s (feed s) p t) := by
  simp only [scan_all_tickers]
  split_ifs with h
  · exact ⟨List.Pairwise.nil, by rw [h]⟩
  · exact ⟨List.sorted_insertionSort _ _, List.perm_insertionSort _ _⟩

/-- A feed with data only for ticker Y. -/
def feedXY : String → List ℚ := fun s => if s = "Y" then [100] else []

/-- C7: the batch scan has partial-failure semantics: the successes are
exactly the per-ticker results of every attempted ticker, the warnings list
exactly the tickers whose scan failed, a batch where every ticker fails
yields the empty result list, and on the concrete feed where X is empty and Y
succeeds the output is one success (Y) and one recorded failure (X). -/
theorem scanMany_per_symbol_failures (feed : String → List ℚ)
    (tickers : List String) (p : ℕ) (t : ℚ) :
    ((scan_all_tickers feed tickers p t).1.Perm
      (tickers.filterMap fun s => get_ticker_dispersion s (feed s) p t)) ∧
    ((scan_all_tickers feed tickers p t).2 =
      tickers.filter fun s => (get_ticker_dispersion s (feed s) p t).isNone) ∧
    ((∀ s ∈ tickers, get_ticker_dispersion s (feed s) p t = none) →
      (scan_all_tickers feed tickers p t).1 = []) ∧
    ((scan_all_tickers feedXY ["X", "Y"] 1 15).1.map TickerResult.ticker =
        ["Y"] ∧
      (scan_all_tickers feedXY ["X", "Y"] 1 15).2 = ["X"]) := by
  refine ⟨?_, ?_, ?_, ?_, ?_⟩
  · simp only [scan_all_tickers]
    split_ifs with h
    · rw [h]
    · exact List.perm_insertionSort _ _
  · simp only [scan_all_tickers]
    split_ifs with h <;> rfl
  · intro hall
    simp only [scan_all_tickers]
    rw [if_pos (List.filterMap_eq_nil_iff.mpr hall)]
  all_goals {
    have hX : get_ticker_dispersion "X" (feedXY "X") 1 15 = none := by
      rw [show feedXY "X" = ([] : List ℚ) from rfl]
      norm_num [get_ticker_dispersion, calculate_sma_dispersion]
    have hY : get_ticker_dispersion "Y" (feedXY "Y") 1 15 = some (r100 "Y") := by
      rw [show feedXY "Y" = [100] from rfl]
      exact get_ticker_const100 "Y"
    unfold scan_all_tickers
    simp only [List.filterMap_cons, List.filterMap_nil, hX, hY]
    rw [if_neg (by simp)]
    simp [List.insertionSort, List.orderedInsert, List.filter, hX, hY, r100]
  }

/-- A feed with no data at all, used by the C7 witness. -/
def feedEmpty : String → List ℚ := fun _ => []

/-- Witness for C7: a batch in which the only ticker fails yields an empty
result list. -/
theorem scanMany_per_symbol_failures_witness :
    (scan_all_tickers feedEmpty ["X"] 1 15).1 = [] :=
  (scanMany_per_symbol_failures feedEmpty ["X"] 1 15).2.2.1
    (by
      intro s hs
      norm_num [feedEmpty, get_ticker_dispersion, calculate_sma_dispersion])

/-- The two-close series whose last dispersion is exactly -14.996 percent. -/
def closesC10 : List ℚ := [28749/2, 21251/2]

/-- The scan record produced for `closesC10` with period 2 and threshold 15:
the reported dispersion rounds to -15.00 while the signal, classified on the
unrounded -14.996, is HOLD. -/
def rC10 : TickerResult :=
  { ticker := "Z"
    date := 1
    close_price := 21251/2
    sma := PF.fin 12500
    dispersion_pct := PF.fin (-15)
    signal := Signal.HOLD }

/-- C10: the `signal` field is classified from the unrounded dispersion while
the reported `dispersion_pct` is that value rounded to two decimals, and
`filter_opportunities` decides membership on the rounded value; hence on the
concrete series with unrounded dispersion -14.996 and threshold 15 the record
reports `dispersion_pct = -15.00`, lands in the buy list, yet its signal is
HOLD. -/
theorem signal_unrounded_partition_rounded :
    (∀ (s : String) (closes : List ℚ) (p : ℕ) (t : ℚ) (r : TickerResult),
      get_ticker_dispersion s closes p t = some r →
      ∃ pts latest, calculate_sma_dispersion closes p = some pts ∧
        pts.getLast? = some latest ∧
        r.signal = classify_signalF latest.disp t ∧
        r.dispersion_pct = latest.disp.round2) ∧
    (get_ticker_dispersion "Z" closesC10 2 15 = some rC10 ∧
      rC10.signal = Signal.HOLD ∧
      rC10.dispersion_pct = PF.fin (-15) ∧
      filter_opportunities [rC10] 15 = ([rC10], [])) := by
  constructor
  · intro s closes p t r h
    unfold get_ticker_dispersion at h
    cases hc : calculate_sma_dispersion closes p with
    | none =>
        rw [hc] at h
        exact Option.noConfusion h
    | some data =>
        simp only [hc] at h
        cases hl : data.getLast? with
        | none =>
            rw [hl] at h
            exact Option.noConfusion h
        | some latest =>
            simp only [hl] at h
            obtain rfl : _ = r := Option.some.inj h
            exact ⟨data, latest, rfl, hl, rfl, rfl⟩
  · have hcalc : calculate_sma_dispersion closesC10 2 =
        some [{ date := 1
                close := 21251/2
                sma := PF.fin 12500
                disp := PF.fin (-3749/250) }] := by
      norm_num [closesC10, calculate_sma_dispersion, rawTable, dropna, smaAt,
        dispAt, List.range_succ]
    have hget : get_ticker_dispersion "Z" closesC10 2 15 = some rC10 := by
      rw [get_ticker_eq "Z" closesC10 2 15 _ _ hcalc (List.getLast?_singleton _)]
      simp only [Option.some.injEq, rC10, TickerResult.mk.injEq]
      refine ⟨trivial, trivial, ?_, ?_, ?_, ?_⟩
      · norm_num [round2, pyRoundInt]
      · show PF.round2 (PF.fin 12500) = PF.fin 12500
        rw [PF.round2]
        norm_num [round2, pyRoundInt]
      · show PF.round2 (PF.fin (-3749/250)) = PF.fin (-15)
        rw [PF.round2]
        norm_num [round2, pyRoundInt]
      · show classify_signalF (PF.fin (-3749/250)) 15 = Signal.HOLD
        rw [classify_signalF, if_neg, if_neg]
        · simp only [PF.fle, decide_eq_true_eq]
          norm_num
        · simp only [PF.fle, decide_eq_true_eq]
          norm_num
    refine ⟨hget, rfl, rfl, ?_⟩
    unfold filter_opportunities
    rw [if_neg (by simp)]
    have hb : (rC10.dispersion_pct.fle (PF.fin (-15))) = true := by
      show (PF.fin (-15)).fle (PF.fin (-15)) = true
      simp [PF.fle]
    have hs : ((PF.fin 15).fle rC10.dispersion_pct) = false := by
      show (PF.fin 15).fle (PF.fin (-15)) = false
      simp only [PF.fle, decide_eq_false_iff_not]
      norm_num
    simp [List.filter, hb, hs, List.insertionSort, List.orderedInsert]

/-- Witness for the universally quantified part of C10 at the concrete
series `closesC10`, discharging its hypothesis with the concrete record. -/
theorem signal_unrounded_partition_rounded_witness :
    ∃ pts latest, calculate_sma_dispersion closesC10 2 = some pts ∧
      pts.getLast? = some latest ∧
      rC10.signal = classify_signalF latest.disp 15 ∧
      rC10.dispersion_pct = latest.disp.round2 :=
  signal_unrounded_partition_rounded.1 "Z" closesC10 2 15 rC10
    signal_unrounded_partition_rounded.2.1

end NyseScanner
